import Mathlib

/-!
Shallow embedding of `src/shell.c` (a small interactive shell with a
fixed-capacity command-history ring) and proofs about its history
subsystem and dispatch logic.

Modelling conventions:
* The C globals `ringBuffer`, `ringStart`, `ringEnd`, `ringCount`, `cmdID`
  become fields of a `ShellState` record, and every C function that
  mutates them becomes a state-passing Lean function.
* The C array `ringBuffer` is modelled as a total map `Int → history_t`
  (the C array is indexed with `int` expressions); the proofs show all
  accesses land in `[0, ringSize)`.
* Command identifiers are modelled as unbounded naturals, matching the
  spec's "unsigned integer, monotonic"; the C comparison
  `commandID == cmdID` (unsigned vs int) is modelled as equality of the
  identifier cast to `Int`, which agrees with C for identifiers below 2^31.
* Process effects (fork/execvp, printf) are modelled as a list of `Event`
  values; whether `execvp` succeeds for a given argument vector is an
  oracle parameter `execOk`.  `fork` is modelled as succeeding (the
  fork-failure path exits the whole interpreter and is outside the
  properties treated here).
-/

def maxLen : Nat := 1000

def ringSize : Int := 10

structure history_t where
  command : String
  commandID : Nat
deriving DecidableEq, Inhabited

structure ShellState where
  ringBuffer : Int → history_t
  ringStart : Int
  ringEnd : Int
  ringCount : Int
  cmdID : Nat

/-- Initial state: C globals `ringStart = -1`, `ringEnd = 0`,
`ringCount = 0`, `cmdID = 1`, zero-initialised buffer. -/
def initState : ShellState :=
  { ringBuffer := fun _ => ⟨"", 0⟩
    ringStart := -1
    ringEnd := 0
    ringCount := 0
    cmdID := 1 }

/-- C `indexer`: `temp = *index + 1; if (temp >= ringSize) *index = 0; else *index = temp;` -/
def indexer (index : Int) : Int :=
  let temp := index + 1
  if ringSize ≤ temp then 0 else temp

/-- C `recHistory`, including the (dead) inner `if (ringCount == ringSize)`
branch of the source. -/
def recHistory (s : ShellState) (cmdLine : String) : ShellState :=
  if s.ringCount < ringSize then
    let start := indexer s.ringStart
    { s with
      ringBuffer := fun i => if i = start then ⟨cmdLine, s.cmdID⟩ else s.ringBuffer i
      ringStart := start
      cmdID := s.cmdID + 1
      ringCount := (if s.ringCount = ringSize then s.ringCount + 1 else s.ringCount) + 1 }
  else
    let start := indexer s.ringStart
    let e := indexer s.ringEnd
    { s with
      ringBuffer := fun i => if i = start then ⟨cmdLine, s.cmdID⟩ else s.ringBuffer i
      ringStart := start
      ringEnd := e
      cmdID := s.cmdID + 1 }

/-- The index/element traversal of the C loops in `history` and `callHist`:
`index = ringEnd; for (i = 0; i < ringCount; i++) { ... ; indexer(&index); }`. -/
def listAllAux : Nat → Int → (Int → history_t) → List history_t
  | 0, _, _ => []
  | n + 1, idx, rb => rb idx :: listAllAux n (indexer idx) rb

/-- The sequence of entries visited by the C history loop, oldest to newest:
exactly what `history` prints. -/
def listAll (s : ShellState) : List history_t :=
  listAllAux s.ringCount.toNat s.ringEnd s.ringBuffer

/-- The indices the C history loop reads, in order. -/
def readIndices : Nat → Int → List Int
  | 0, _ => []
  | n + 1, idx => idx :: readIndices n (indexer idx)

/-- The scan of C `callHist`: walk the ring oldest to newest, return the
first entry whose `commandID` equals the searched id.  The C comparison is
`unsigned == int`; see the header comment. -/
def findAux : Nat → Int → (Int → history_t) → Int → Option history_t
  | 0, _, _, _ => none
  | n + 1, idx, rb, id =>
      if ((rb idx).commandID : Int) = id then some (rb idx)
      else findAux n (indexer idx) rb id

/-- Lookup by identifier, as performed by the scan inside C `callHist`
(spec name `findByIdentifier`). -/
def findByIdentifier (s : ShellState) (id : Int) : Option history_t :=
  findAux s.ringCount.toNat s.ringEnd s.ringBuffer id

/-- Observable effects of a dispatch: child processes spawned (argument
vector plus background flag) and lines printed. -/
inductive Event where
  | spawn (argv : List String) (bg : Bool)
  | print (line : String)
deriving DecidableEq

/-- C `foreground`: fork, child runs `execvp(cmdParsed[0], cmdParsed)`; on
failure the child prints `<cmdLine>: command not found` and exits 0; the
parent waits and continues. -/
def foreground (execOk : List String → Bool) (cmdParsed : List String)
    (cmdLine : String) : List Event :=
  Event.spawn cmdParsed false ::
    (if execOk cmdParsed then [] else [Event.print (cmdLine ++ ": command not found")])

/-- C `background`: like `foreground` but the parent does not wait.  The
`signal(SIGCHLD, handler)` installation has no effect on the state or
output modelled here. -/
def background (execOk : List String → Bool) (cmdParsed : List String)
    (cmdLine : String) : List Event :=
  Event.spawn cmdParsed true ::
    (if execOk cmdParsed then [] else [Event.print (cmdLine ++ ": command not found")])

/-- Rendering of one line of C `history`'s
`printf("       %d %s\n", id, command)`. -/
def printEntry (e : history_t) : Event :=
  Event.print ("       " ++ toString e.commandID ++ " " ++ e.command)

/-- C `history`: first `recHistory(cmdLine)`, then print the ring oldest to
newest. -/
def history (s : ShellState) (cmdLine : String) : ShellState × List Event :=
  let s' := recHistory s cmdLine
  (s', (listAll s').map printEntry)

/-- Modelled from the spec: the tokenizer `parseCommand` is declared in
`parser.h`, whose implementation is not among the repository sources under
`src/`.  Spec section 6: split the line on whitespace into tokens, recognise a
trailing `&` token as the background marker and strip it, an empty or
all-whitespace line yields an empty argument vector.  The splitter is
written over `List Char` so that it evaluates by kernel reduction. -/
def splitWs : List Char → List Char → List String
  | [], cur => if cur = [] then [] else [String.mk cur.reverse]
  | c :: cs, cur =>
      if c.isWhitespace then
        if cur = [] then splitWs cs [] else String.mk cur.reverse :: splitWs cs []
      else splitWs cs (c :: cur)

/-- Modelled from the spec: see `splitWs`.  Returns the argument vector and
the background flag (0 foreground, 1 background), mirroring the C calling
convention `parseCommand(cmdLine, &bg)`. -/
def parseCommand (line : String) : List String × Int :=
  let toks := splitWs line.toList []
  match toks.getLast? with
  | some t => if t = "&" then (toks.dropLast, 1) else (toks, 0)
  | none => ([], 0)

/-- Modelled from the C standard library `atoi` (used at
`int cmdID = atoi(temp + 1)`): skip leading whitespace, optional sign, then
the longest prefix of decimal digits; 0 when there are none. -/
def atoiDigits : List Char → Nat → Nat
  | [], acc => acc
  | c :: cs, acc => if c.isDigit then atoiDigits cs (acc * 10 + (c.toNat - 48)) else acc

/-- Modelled from the C standard library `atoi`; see `atoiDigits`. -/
def atoi (str : String) : Int :=
  match str.toList.dropWhile (fun c => c.isWhitespace) with
  | [] => 0
  | c :: rest =>
      if c = '-' then -(atoiDigits rest 0 : Int)
      else if c = '+' then (atoiDigits rest 0 : Int)
      else (atoiDigits (c :: rest) 0 : Int)

/-- C `programCall`: `history` when the raw line is `"history"`, otherwise
run foreground or background according to `bg` and then `recHistory(cmdLine)`. -/
def programCall (execOk : List String → Bool) (s : ShellState)
    (cmdParsed : List String) (cmdLine : String) (bg : Int) :
    ShellState × List Event :=
  if cmdLine = "history" then
    history s cmdLine
  else if bg = 0 then
    (recHistory s cmdLine, foreground execOk cmdParsed cmdLine)
  else
    (recHistory s cmdLine, background execOk cmdParsed cmdLine)

/-- C `callHist`: scan the ring for the identifier; on a hit, parse the
STORED command text and dispatch it through `programCall` (the C loop does
this inline on the first match, which is what `findByIdentifier` returns);
on a miss print `<cmdLine>: event not found`. -/
def callHist (execOk : List String → Bool) (s : ShellState) (id : Int)
    (cmdLine : String) : ShellState × List Event :=
  match findByIdentifier s id with
  | some e =>
      let p := parseCommand e.command
      programCall execOk s p.1 e.command p.2
  | none => (s, [Event.print (cmdLine ++ ": event not found")])

/-- One iteration of C `readCommand` on a non-`"exit"` line: the `"history"`
comparison comes first, then the line is parsed; an empty vector is a
silent `continue`; a first token starting with `'!'` goes to `callHist`
with `atoi` of the token minus its first character; anything else goes to
`programCall`. -/
def dispatch (execOk : List String → Bool) (s : ShellState) (cmdLine : String) :
    ShellState × List Event :=
  if cmdLine = "history" then
    history s cmdLine
  else
    match parseCommand cmdLine with
    | (cmdParsed, bg) =>
      match cmdParsed with
      | [] => (s, [])
      | tok :: rest =>
          if tok.toList.head? = some '!' then
            callHist execOk s (atoi (String.mk (tok.toList.drop 1))) cmdLine
          else
            programCall execOk s (tok :: rest) cmdLine bg

/-- The ring state after appending a whole sequence of commands, starting
from the initial state. -/
def appendAll (cs : List String) : ShellState :=
  cs.foldl recHistory initState

/-- Spec-side description of `listAll` (spec sections 3 and 8): after N
appended commands the listing is, oldest first, the N entries with
identifiers 1..N when N is at most the capacity, and otherwise the last
`capacity` entries with contiguous identifiers N-capacity+1 .. N. -/
def listAllSpec (cs : List String) : List history_t :=
  if cs.length ≤ 10 then
    (List.range cs.length).map (fun k => ⟨cs.getD k "", k + 1⟩)
  else
    (List.range 10).map (fun k => ⟨cs.getD (cs.length - 10 + k) "", cs.length - 10 + k + 1⟩)

example : parseCommand "!1" = (["!1"], 0) := by decide
example : parseCommand "" = ([], 0) := by decide
example : parseCommand "echo hi &" = (["echo", "hi"], 1) := by decide
example : atoi "1" = 1 := by decide
example : atoi "x" = 0 := by decide
example : listAll (appendAll ["a", "b"]) = [⟨"a", 1⟩, ⟨"b", 2⟩] := by decide
example :
    listAll (appendAll ["c1","c2","c3","c4","c5","c6","c7","c8","c9","c10","c11","c12"]) =
      (List.range 10).map (fun k => ⟨"c" ++ toString (k + 3), k + 3⟩) := by decide
example : findByIdentifier
    (appendAll ["c1","c2","c3","c4","c5","c6","c7","c8","c9","c10","c11","c12"]) 2 =
      none := by decide

/-! Helper lemmas about the ring state reached by appending a sequence. -/

theorem indexer_eq_emod (x : Int) (h0 : 0 ≤ x) (h1 : x < 10) :
    indexer x = (x + 1) % 10 := by
  simp only [indexer, ringSize]
  split <;> omega

theorem indexer_neg_one : indexer (-1) = 0 := by decide

theorem appendAll_concat (cs : List String) (c : String) :
    appendAll (cs ++ [c]) = recHistory (appendAll cs) c := by
  simp [appendAll, List.foldl_append]

theorem getD_append_lt (l l' : List String) (j : Nat) (hj : j < l.length) :
    (l ++ l').getD j "" = l.getD j "" := by
  induction l generalizing j with
  | nil => simp at hj
  | cons a l ih =>
      cases j with
      | zero => rfl
      | succ j => simpa using ih j (by simp at hj; omega)

theorem recHistory_small (s : ShellState) (c : String) (h : s.ringCount < ringSize) :
    recHistory s c = { s with
      ringBuffer := fun i =>
        if i = indexer s.ringStart then ⟨c, s.cmdID⟩ else s.ringBuffer i
      ringStart := indexer s.ringStart
      cmdID := s.cmdID + 1
      ringCount := s.ringCount + 1 } := by
  have hne : ¬ s.ringCount = ringSize := by
    simp only [ringSize] at h ⊢; omega
  unfold recHistory
  rw [if_pos h, if_neg hne]

theorem recHistory_full (s : ShellState) (c : String) (h : ¬ s.ringCount < ringSize) :
    recHistory s c = { s with
      ringBuffer := fun i =>
        if i = indexer s.ringStart then ⟨c, s.cmdID⟩ else s.ringBuffer i
      ringStart := indexer s.ringStart
      ringEnd := indexer s.ringEnd
      cmdID := s.cmdID + 1 } := by
  unfold recHistory
  rw [if_neg h]

theorem getD_concat_self (l : List String) (c : String) :
    (l ++ [c]).getD l.length "" = c := by
  induction l with
  | nil => rfl
  | cons a l ih =>
      simp only [List.cons_append, List.length_cons, List.getD_cons_succ]
      exact ih

/-- Full characterisation of the ring state after appending `cs` from the
initial state: identifier counter, count, both physical indices, and the
buffer contents along the oldest-to-newest traversal. -/
structure RingSpec (cs : List String) (s : ShellState) : Prop where
  cmdID_eq : s.cmdID = cs.length + 1
  count_eq : s.ringCount = ((min cs.length 10 : Nat) : Int)
  end_eq : s.ringEnd = ((cs.length - min cs.length 10 : Nat) : Int) % 10
  start_eq : s.ringStart = if cs.length = 0 then -1 else ((cs.length : Int) - 1) % 10
  buf_eq : ∀ k : Nat, k < min cs.length 10 →
    s.ringBuffer ((s.ringEnd + (k : Int)) % 10) =
      ⟨cs.getD (cs.length - min cs.length 10 + k) "",
       cs.length - min cs.length 10 + k + 1⟩

theorem appendAll_ringSpec (cs : List String) : RingSpec cs (appendAll cs) := by
  induction cs using List.reverseRecOn with
  | nil =>
      refine ⟨rfl, rfl, rfl, rfl, ?_⟩
      intro k hk
      simp at hk
  | append_singleton cs c ih =>
      obtain ⟨h1, h2, h3, h4, h5⟩ := ih
      rw [appendAll_concat]
      set s := appendAll cs with hs
      set N := cs.length with hN
      by_cases hsmall : N < 10
      · -- not-yet-full branch of recHistory
        have hcount : s.ringCount < ringSize := by
          rw [h2]; simp only [ringSize]; omega
        have hend0 : s.ringEnd = 0 := by
          rw [h3, show (N - min N 10) = 0 from by omega]
          rfl
        have hstart : indexer s.ringStart = (N : Int) := by
          rw [h4]
          by_cases h0 : N = 0
          · simp [h0, indexer_neg_one]
          · rw [if_neg h0, indexer_eq_emod _ (by omega) (by omega)]
            omega
        rw [recHistory_small s c hcount]
        refine ⟨?_, ?_, ?_, ?_, ?_⟩
        · simp only [List.length_append, List.length_singleton, h1]
        · simp only [List.length_append, List.length_singleton, h2]
          push_cast
          omega
        · simp only [List.length_append, List.length_singleton, hend0]
          rw [show ((N + 1) - min (N + 1) 10) = 0 from by omega]
          decide
        · simp only [List.length_append, List.length_singleton, hstart]
          rw [if_neg (by omega)]
          push_cast
          omega
        · intro k hk
          simp only [List.length_append, List.length_singleton] at hk ⊢
          have hm : min (N + 1) 10 = N + 1 := by omega
          rw [hm] at hk ⊢
          simp only [hstart, hend0]
          have hk9 : k ≤ 9 := by omega
          have hidx : ((0 : Int) + (k : Int)) % 10 = (k : Int) := by omega
          rw [hidx]
          by_cases hkn : (k : Int) = (N : Int)
          · rw [if_pos hkn, h1]
            have hkn' : k = N := by exact_mod_cast hkn
            rw [hkn', show ((N + 1) - (N + 1) + N) = N from by omega,
              getD_concat_self]
          · rw [if_neg hkn]
            have hkn' : ¬ k = N := by exact_mod_cast hkn
            have hb := h5 k (by omega)
            rw [hend0, hidx] at hb
            rw [hb, show (N - min N 10 + k) = k from by omega,
              show ((N + 1) - (N + 1) + k) = k from by omega,
              getD_append_lt cs [c] k (by omega)]
      · -- full-ring branch of recHistory
        have hm : min N 10 = 10 := by omega
        have hcount : ¬ s.ringCount < ringSize := by
          rw [h2, hm]; simp only [ringSize]; omega
        have hendv : s.ringEnd = ((N - 10 : Nat) : Int) % 10 := by
          rw [h3, hm]
        have hendb : 0 ≤ s.ringEnd ∧ s.ringEnd < 10 := by
          rw [hendv]; omega
        have hstartv : indexer s.ringStart = (N : Int) % 10 := by
          rw [h4, if_neg (by omega), indexer_eq_emod _ (by omega) (by omega)]
          omega
        have hendi : indexer s.ringEnd = (s.ringEnd + 1) % 10 :=
          indexer_eq_emod _ hendb.1 hendb.2
        rw [recHistory_full s c hcount]
        refine ⟨?_, ?_, ?_, ?_, ?_⟩
        · simp only [List.length_append, List.length_singleton, h1]
        · simp only [List.length_append, List.length_singleton, h2, hm]
          rw [show (min (N + 1) 10) = 10 from by omega]
        · simp only [List.length_append, List.length_singleton]
          rw [hendi, hendv]
          omega
        · simp only [List.length_append, List.length_singleton, hstartv]
          rw [if_neg (by omega)]
          omega
        · intro k hk
          simp only [List.length_append, List.length_singleton] at hk ⊢
          rw [show (min (N + 1) 10) = 10 from by omega] at hk ⊢
          simp only [hstartv, hendi]
          have hc1 : ((N - 10 : Nat) : Int) = (N : Int) - 10 := by omega
          by_cases hk9 : k = 9
          · subst hk9
            rw [if_pos (by rw [hendv, hc1]; push_cast; omega), h1,
              show ((N + 1) - 10 + 9) = N from by omega,
              getD_concat_self]
          · rw [if_neg (by rw [hendv, hc1]; omega)]
            have hb := h5 (k + 1) (by omega)
            rw [hm] at hb
            have hidx : ((s.ringEnd + 1) % 10 + (k : Int)) % 10 =
                (s.ringEnd + ((k + 1 : Nat) : Int)) % 10 := by
              push_cast
              omega
            rw [hidx, hb,
              show (N - 10 + (k + 1)) = (N + 1) - 10 + k from by omega,
              getD_append_lt cs [c] _ (by omega)]
theorem listAllAux_eq (n : Nat) :
    ∀ (idx : Int), 0 ≤ idx → idx < 10 → ∀ rb : Int → history_t,
      listAllAux n idx rb =
        (List.range n).map (fun (i : Nat) => rb ((idx + (i : Int)) % 10)) := by
  induction n with
  | zero => intro idx h0 h1 rb; simp [listAllAux]
  | succ n ih =>
      intro idx h0 h1 rb
      rw [show listAllAux (n + 1) idx rb
            = rb idx :: listAllAux n (indexer idx) rb from rfl,
        indexer_eq_emod idx h0 h1,
        ih ((idx + 1) % 10) (by omega) (by omega) rb,
        List.range_succ_eq_map, List.map_cons, List.map_map]
      congr 1
      · congr 1
        omega
      · apply List.map_congr_left
        intro i hi
        simp only [Function.comp_apply]
        congr 1
        push_cast
        omega

theorem listAll_appendAll (cs : List String) :
    listAll (appendAll cs) =
      (List.range (min cs.length 10)).map (fun k =>
        (⟨cs.getD (cs.length - min cs.length 10 + k) "",
          cs.length - min cs.length 10 + k + 1⟩ : history_t)) := by
  obtain ⟨h1, h2, h3, h4, h5⟩ := appendAll_ringSpec cs
  unfold listAll
  rw [h2, Int.toNat_natCast,
    listAllAux_eq _ _ (by rw [h3]; omega) (by rw [h3]; omega)]
  apply List.map_congr_left
  intro k hk
  rw [List.mem_range] at hk
  exact h5 k hk

theorem findAux_eq (n : Nat) :
    ∀ (idx : Int) (rb : Int → history_t) (id : Int),
      findAux n idx rb id =
        (listAllAux n idx rb).find? (fun e => decide ((e.commandID : Int) = id)) := by
  induction n with
  | zero => intro idx rb id; rfl
  | succ n ih =>
      intro idx rb id
      rw [show listAllAux (n + 1) idx rb
            = rb idx :: listAllAux n (indexer idx) rb from rfl,
        show findAux (n + 1) idx rb id
            = (if ((rb idx).commandID : Int) = id then some (rb idx)
               else findAux n (indexer idx) rb id) from rfl]
      by_cases h : ((rb idx).commandID : Int) = id
      · rw [if_pos h, List.find?_cons_of_pos _ (by simpa using h)]
      · rw [if_neg h, List.find?_cons_of_neg _ (by simpa using h), ih]

theorem find_range_map (m : Nat) :
    ∀ (b : Nat) (cs : List String) (id : Int),
      ((List.range m).map (fun k =>
          (⟨cs.getD (b + k) "", b + k + 1⟩ : history_t))).find?
        (fun e => decide ((e.commandID : Int) = id)) =
      (if (b : Int) + 1 ≤ id ∧ id ≤ (b : Int) + (m : Int) then
        some ⟨cs.getD (id.toNat - 1) "", id.toNat⟩
      else none) := by
  induction m with
  | zero =>
      intro b cs id
      rw [if_neg (by push_cast; omega)]
      rfl
  | succ m ih =>
      intro b cs id
      rw [List.range_succ_eq_map, List.map_cons, List.map_map]
      by_cases h : ((b : Int)) + 1 = id
      · rw [List.find?_cons_of_pos _ (by simp; omega)]
        rw [if_pos (by push_cast; omega)]
        have ht : id.toNat = b + 1 := by omega
        rw [ht]
        simp
      · rw [List.find?_cons_of_neg _ (by simp; omega)]
        have hmap : (List.range m).map
              ((fun k => (⟨cs.getD (b + k) "", b + k + 1⟩ : history_t)) ∘ Nat.succ)
            = (List.range m).map (fun k =>
                (⟨cs.getD ((b + 1) + k) "", (b + 1) + k + 1⟩ : history_t)) := by
          apply List.map_congr_left
          intro i hi
          simp only [Function.comp_apply]
          congr 2 <;> omega
        rw [hmap, ih (b + 1) cs id]
        by_cases h2 : (b : Int) + 1 ≤ id ∧ id ≤ (b : Int) + ((m : Int) + 1)
        · rw [if_pos (by push_cast; omega), if_pos (by push_cast; omega)]
        · rw [if_neg (by push_cast at h2 ⊢; omega),
            if_neg (by push_cast at h2 ⊢; omega)]

theorem findByIdentifier_appendAll (cs : List String) (id : Int) :
    findByIdentifier (appendAll cs) id =
      (if ((cs.length - min cs.length 10 : Nat) : Int) + 1 ≤ id ∧
          id ≤ ((cs.length - min cs.length 10 : Nat) : Int) + ((min cs.length 10 : Nat) : Int)
       then some ⟨cs.getD (id.toNat - 1) "", id.toNat⟩
       else none) := by
  have hf : findByIdentifier (appendAll cs) id =
      (listAll (appendAll cs)).find? (fun e => decide ((e.commandID : Int) = id)) := by
    unfold findByIdentifier listAll
    exact findAux_eq _ _ _ _
  rw [hf, listAll_appendAll, find_range_map]
theorem recHistory_cmdID (s : ShellState) (c : String) :
    (recHistory s c).cmdID = s.cmdID + 1 := by
  unfold recHistory
  split <;> rfl

theorem listAllAux_eq_readIndices (n : Nat) :
    ∀ (idx : Int) (rb : Int → history_t),
      listAllAux n idx rb = (readIndices n idx).map rb := by
  induction n with
  | zero => intro idx rb; rfl
  | succ n ih =>
      intro idx rb
      rw [show listAllAux (n + 1) idx rb
            = rb idx :: listAllAux n (indexer idx) rb from rfl,
        show readIndices (n + 1) idx = idx :: readIndices n (indexer idx) from rfl,
        List.map_cons, ih]

/-! The claims. -/

/-- C2: for every sequence of N appended commands, listing history returns
exactly those N entries in insertion order with identifiers 1..N when
N is at most the capacity, and otherwise exactly the last `capacity`
entries, oldest-first, with contiguous increasing identifiers
N-capacity+1 .. N (`listAllSpec` states this directly from the spec). -/
theorem listAll_refines_listAllSpec (cs : List String) :
    listAll (appendAll cs) = listAllSpec cs := by
  rw [listAll_appendAll]
  unfold listAllSpec
  by_cases h : cs.length ≤ 10
  · rw [if_pos h, show min cs.length 10 = cs.length from by omega]
    apply List.map_congr_left
    intro k hk
    simp [Nat.sub_self]
  · rw [if_neg h, show min cs.length 10 = 10 from by omega]

/-- C7: history identifiers are monotonic and never reused: after N
recorded commands the counter is N+1, every recording step (the plain
append used by external commands and replays, and the `history` command
itself) increments it by exactly one, the identifiers in the ring are
exactly N-min(N,10)+1 .. N oldest-to-newest, hence the first recorded
command gets identifier 1, and within the ring identifiers strictly
increase from oldest to newest. -/
theorem identifiers_monotonic (cs : List String) (c : String) :
    (appendAll cs).cmdID = cs.length + 1 ∧
    (recHistory (appendAll cs) c).cmdID = (appendAll cs).cmdID + 1 ∧
    (history (appendAll cs) c).1.cmdID = (appendAll cs).cmdID + 1 ∧
    (listAll (appendAll cs)).map history_t.commandID =
      (List.range (min cs.length 10)).map
        (fun k => cs.length - min cs.length 10 + k + 1) ∧
    ((listAll (appendAll cs)).map history_t.commandID).Pairwise (· < ·) := by
  refine ⟨(appendAll_ringSpec cs).cmdID_eq, recHistory_cmdID _ _,
    recHistory_cmdID _ _, ?_, ?_⟩
  · rw [listAll_appendAll, List.map_map]
    rfl
  · rw [listAll_appendAll, List.map_map]
    refine List.Pairwise.map _ (fun a b hab => ?_) (List.pairwise_lt_range _)
    simp only [Function.comp_apply]
    omega

/-- C5: for every identifier that was never assigned or that has been
evicted from the ring, lookup reports NotFound and dispatching the recall
prints an event-not-found message and appends nothing (the state is
unchanged); for every identifier still stored, lookup returns the unique
matching entry. -/
theorem findByIdentifier_correct (execOk : List String → Bool) (cs : List String)
    (id : Int) (rawLine : String) :
    ((id < (cs.length : Int) - ((min cs.length 10 : Nat) : Int) + 1 ∨
        (cs.length : Int) < id) →
      findByIdentifier (appendAll cs) id = none ∧
      callHist execOk (appendAll cs) id rawLine =
        (appendAll cs, [Event.print (rawLine ++ ": event not found")])) ∧
    (((cs.length : Int) - ((min cs.length 10 : Nat) : Int) + 1 ≤ id ∧
        id ≤ (cs.length : Int)) →
      findByIdentifier (appendAll cs) id =
        some ⟨cs.getD (id.toNat - 1) "", id.toNat⟩ ∧
      ∀ e ∈ listAll (appendAll cs), (e.commandID : Int) = id →
        e = ⟨cs.getD (id.toNat - 1) "", id.toNat⟩) := by
  have hfind := findByIdentifier_appendAll cs id
  constructor
  · intro h
    have hnone : findByIdentifier (appendAll cs) id = none := by
      rw [hfind, if_neg (by omega)]
    refine ⟨hnone, ?_⟩
    simp only [callHist, hnone]
  · intro h
    have hmle : min cs.length 10 ≤ cs.length := Nat.min_le_left _ _
    have hsome : findByIdentifier (appendAll cs) id =
        some ⟨cs.getD (id.toNat - 1) "", id.toNat⟩ := by
      rw [hfind, if_pos (by omega)]
    refine ⟨hsome, ?_⟩
    intro e he hid
    rw [listAll_appendAll] at he
    simp only [List.mem_map, List.mem_range] at he
    obtain ⟨k, hk, rfl⟩ := he
    simp only at hid
    have h2 : cs.length - min cs.length 10 + k = id.toNat - 1 := by omega
    congr 1
    · rw [h2]
    · omega

/-- C10: every ring access stays inside the logical index space: `indexer`
maps any index in [-1, ringSize-1] into [0, ringSize); the physical
indices `ringStart` and `ringEnd` stay in that space after any sequence
of appends (so the slot `recHistory` writes, `indexer ringStart`, is in
[0, ringSize)); and the traversal of the `history` and `callHist` loops
reads exactly the indices `readIndices`, all of which lie in
[0, ringSize). -/
theorem ring_accesses_in_bounds :
    (∀ i : Int, -1 ≤ i → i < 10 → 0 ≤ indexer i ∧ indexer i < 10) ∧
    (∀ cs : List String,
      -1 ≤ (appendAll cs).ringStart ∧ (appendAll cs).ringStart < 10 ∧
      0 ≤ (appendAll cs).ringEnd ∧ (appendAll cs).ringEnd < 10 ∧
      0 ≤ indexer (appendAll cs).ringStart ∧ indexer (appendAll cs).ringStart < 10) ∧
    (∀ (n : Nat) (idx : Int), 0 ≤ idx → idx < 10 →
      ∀ j ∈ readIndices n idx, 0 ≤ j ∧ j < 10) ∧
    (∀ s : ShellState,
      listAll s = (readIndices s.ringCount.toNat s.ringEnd).map s.ringBuffer) ∧
    (∀ (n : Nat) (idx : Int) (rb : Int → history_t) (id : Int),
      findAux n idx rb id =
        ((readIndices n idx).map rb).find? (fun e => decide ((e.commandID : Int) = id))) := by
  have hidx : ∀ i : Int, -1 ≤ i → i < 10 → 0 ≤ indexer i ∧ indexer i < 10 := by
    intro i h1 h2
    simp only [indexer, ringSize]
    split <;> omega
  have hread : ∀ (n : Nat) (idx : Int), 0 ≤ idx → idx < 10 →
      ∀ j ∈ readIndices n idx, 0 ≤ j ∧ j < 10 := by
    intro n
    induction n with
    | zero => intro idx h0 h1 j hj; simp [readIndices] at hj
    | succ n ih =>
        intro idx h0 h1 j hj
        rw [show readIndices (n + 1) idx = idx :: readIndices n (indexer idx) from rfl,
          List.mem_cons] at hj
        rcases hj with rfl | hj
        · exact ⟨h0, h1⟩
        · exact ih (indexer idx) (hidx idx (by omega) h1).1 (hidx idx (by omega) h1).2 j hj
  refine ⟨hidx, ?_, hread, ?_, ?_⟩
  · intro cs
    obtain ⟨h1, h2, h3, h4, h5⟩ := appendAll_ringSpec cs
    have hs : -1 ≤ (appendAll cs).ringStart ∧ (appendAll cs).ringStart < 10 := by
      rw [h4]; split <;> omega
    have he : 0 ≤ (appendAll cs).ringEnd ∧ (appendAll cs).ringEnd < 10 := by
      rw [h3]; omega
    exact ⟨hs.1, hs.2, he.1, he.2, (hidx _ hs.1 hs.2).1, (hidx _ hs.1 hs.2).2⟩
  · intro s
    exact listAllAux_eq_readIndices _ _ _
  · intro n idx rb id
    rw [findAux_eq, listAllAux_eq_readIndices]

theorem ring_accesses_in_bounds_witness :
    (0 ≤ indexer (-1) ∧ indexer (-1) < 10) ∧
    (0 ≤ (0 : Int) ∧ (0 : Int) < 10) :=
  ⟨ring_accesses_in_bounds.1 (-1) (by decide) (by decide),
   ring_accesses_in_bounds.2.2.1 3 0 (by decide) (by decide) 0 (by decide)⟩
theorem findByIdentifier_correct_witness :
    findByIdentifier (appendAll ["a"]) 99 = none ∧
    findByIdentifier (appendAll ["a"]) 1 = some ⟨"a", 1⟩ :=
  ⟨((findByIdentifier_correct (fun _ => true) ["a"] 99 "!99").1 (by decide)).1,
   ((findByIdentifier_correct (fun _ => true) ["a"] 1 "!1").2 (by decide)).1⟩

/-- C1: for every sequence of appended commands the stored count never
exceeds the capacity 10, and once the ring is full every subsequent append
drops exactly the logically oldest entry (the head of the oldest-to-newest
listing, which carries the smallest identifier of all stored entries) and
appends the new one, touching no other entry. -/
theorem ring_capacity_and_evicts_oldest :
    (∀ cs : List String, (appendAll cs).ringCount ≤ 10) ∧
    (∀ (cs : List String) (c : String), 10 ≤ cs.length →
      listAll (recHistory (appendAll cs) c) =
        (listAll (appendAll cs)).drop 1 ++ [⟨c, (appendAll cs).cmdID⟩] ∧
      ∀ e ∈ listAll (appendAll cs),
        ((listAll (appendAll cs)).headI).commandID ≤ e.commandID) := by
  constructor
  · intro cs
    rw [(appendAll_ringSpec cs).count_eq]
    omega
  · intro cs c h
    have hm : min cs.length 10 = 10 := by omega
    have hm' : min (cs.length + 1) 10 = 10 := by omega
    constructor
    · rw [← appendAll_concat, listAll_appendAll, listAll_appendAll,
        (appendAll_ringSpec cs).cmdID_eq]
      simp only [List.length_append, List.length_singleton, hm, hm']
      conv_lhs => rw [show List.range 10 = List.range 9 ++ [9] from by decide,
        List.map_append, List.map_singleton]
      conv_rhs => rw [show List.range 10 = 0 :: (List.range 9).map Nat.succ from by decide,
        List.map_cons, List.drop_one, List.tail_cons, List.map_map]
      congr 1
      · apply List.map_congr_left
        intro i hi
        rw [List.mem_range] at hi
        simp only [Function.comp_apply]
        rw [show cs.length + 1 - 10 + i = cs.length - 10 + Nat.succ i from by omega,
          getD_append_lt cs [c] _ (by omega)]
      · rw [show cs.length + 1 - 10 + 9 = cs.length from by omega,
          getD_concat_self]
    · intro e he
      rw [listAll_appendAll, hm] at he
      simp only [List.mem_map, List.mem_range] at he
      obtain ⟨k, hk, rfl⟩ := he
      rw [listAll_appendAll, hm]
      have hh : ((List.range 10).map (fun j =>
          (⟨cs.getD (cs.length - 10 + j) "", cs.length - 10 + j + 1⟩ : history_t))).headI
          = ⟨cs.getD (cs.length - 10 + 0) "", cs.length - 10 + 0 + 1⟩ := by
        rw [show List.range 10 = 0 :: (List.range 9).map Nat.succ from by decide,
          List.map_cons]
        rfl
      rw [hh]
      simp only
      omega

theorem ring_capacity_and_evicts_oldest_witness :
    10 ≤ (["h1","h2","h3","h4","h5","h6","h7","h8","h9","h10"] : List String).length ∧
    listAll (recHistory
        (appendAll ["h1","h2","h3","h4","h5","h6","h7","h8","h9","h10"]) "x") =
      (listAll (appendAll ["h1","h2","h3","h4","h5","h6","h7","h8","h9","h10"])).drop 1 ++
        [⟨"x", (appendAll ["h1","h2","h3","h4","h5","h6","h7","h8","h9","h10"]).cmdID⟩] :=
  ⟨by decide,
   (ring_capacity_and_evicts_oldest.2 ["h1","h2","h3","h4","h5","h6","h7","h8","h9","h10"]
      "x" (by decide)).1⟩
/-! Helper lemmas for the dispatch-level claims. -/

theorem dispatch_parse_nil (execOk : List String → Bool) (s : ShellState)
    (line : String) (bg : Int)
    (hh : ¬ line = "history") (hp : parseCommand line = ([], bg)) :
    dispatch execOk s line = (s, []) := by
  unfold dispatch
  rw [if_neg hh, hp]

theorem dispatch_parse_cons (execOk : List String → Bool) (s : ShellState)
    (line tok : String) (rest : List String) (bg : Int)
    (hh : ¬ line = "history") (hp : parseCommand line = (tok :: rest, bg)) :
    dispatch execOk s line =
      (if tok.toList.head? = some '!' then
        callHist execOk s (atoi (String.mk (tok.toList.drop 1))) line
      else programCall execOk s (tok :: rest) line bg) := by
  unfold dispatch
  rw [if_neg hh, hp]

theorem programCall_not_history (execOk : List String → Bool) (s : ShellState)
    (argv : List String) (line : String) (bg : Int) (hh : ¬ line = "history") :
    programCall execOk s argv line bg =
      (recHistory s line,
       if bg = 0 then foreground execOk argv line else background execOk argv line) := by
  unfold programCall
  rw [if_neg hh]
  split <;> rfl

theorem parseCommand_history : parseCommand "history" = (["history"], 0) := by decide

theorem listAll_mem_concat (cs : List String) (c : String) (n : Nat)
    (hn : n = cs.length + 1) :
    (⟨c, n⟩ : history_t) ∈ listAll (appendAll (cs ++ [c])) := by
  subst hn
  rw [listAll_appendAll]
  simp only [List.length_append, List.length_singleton]
  rw [List.mem_map]
  refine ⟨min (cs.length + 1) 10 - 1, ?_, ?_⟩
  · rw [List.mem_range]; omega
  · have hk : cs.length + 1 - min (cs.length + 1) 10 + (min (cs.length + 1) 10 - 1)
        = cs.length := by omega
    rw [hk, getD_concat_self]

theorem listAll_mem_penultimate (cs : List String) (c d : String) (n : Nat)
    (hn : n = cs.length + 1) :
    (⟨c, n⟩ : history_t) ∈ listAll (appendAll ((cs ++ [c]) ++ [d])) := by
  subst hn
  rw [listAll_appendAll]
  simp only [List.length_append, List.length_singleton]
  rw [List.mem_map]
  refine ⟨min (cs.length + 1 + 1) 10 - 2, ?_, ?_⟩
  · rw [List.mem_range]; omega
  · have hk : cs.length + 1 + 1 - min (cs.length + 1 + 1) 10 +
        (min (cs.length + 1 + 1) 10 - 2) = cs.length := by omega
    rw [hk, getD_append_lt (cs ++ [c]) [d] _ (by simp), getD_concat_self]

theorem listAll_concat_getLast (cs : List String) (c : String) (n : Nat)
    (hn : n = cs.length + 1) :
    (listAll (appendAll (cs ++ [c]))).getLast? = some ⟨c, n⟩ := by
  subst hn
  rw [listAll_appendAll]
  simp only [List.length_append, List.length_singleton]
  obtain ⟨m, hm⟩ : ∃ m, min (cs.length + 1) 10 = m + 1 :=
    ⟨min (cs.length + 1) 10 - 1, by omega⟩
  rw [hm, List.range_succ, List.map_append, List.map_singleton, List.getLast?_concat]
  have h1 : cs.length + 1 - (m + 1) + m = cs.length := by omega
  rw [h1, getD_concat_self]

theorem atoiDigits_no_digit (l : List Char) (acc : Nat)
    (h : ∀ c ∈ l, c.isDigit = false) : atoiDigits l acc = acc := by
  cases l with
  | nil => rfl
  | cons c cs =>
      unfold atoiDigits
      rw [h c (List.mem_cons_self c cs)]
      simp

theorem atoi_no_digit (t : String) (h : ∀ c ∈ t.toList, c.isDigit = false) :
    atoi t = 0 := by
  unfold atoi
  have hsub : (t.toList.dropWhile (fun c => c.isWhitespace)).Sublist t.toList :=
    List.dropWhile_sublist _
  cases hcs : t.toList.dropWhile (fun c => c.isWhitespace) with
  | nil => rfl
  | cons c rest =>
      have hall : ∀ x ∈ c :: rest, x.isDigit = false := by
        intro x hx
        refine h x (hsub.subset ?_)
        rw [hcs]
        exact hx
      have hc : c.isDigit = false := hall c (List.mem_cons_self c rest)
      have hr : ∀ x ∈ rest, x.isDigit = false := fun x hx =>
        hall x (List.mem_cons_of_mem c hx)
      show (if c = '-' then -(atoiDigits rest 0 : Int)
        else if c = '+' then (atoiDigits rest 0 : Int)
        else (atoiDigits (c :: rest) 0 : Int)) = 0
      by_cases h1 : c = '-'
      · rw [if_pos h1, atoiDigits_no_digit rest 0 hr]; rfl
      · rw [if_neg h1]
        by_cases h2 : c = '+'
        · rw [if_pos h2, atoiDigits_no_digit rest 0 hr]; rfl
        · rw [if_neg h2, atoiDigits_no_digit (c :: rest) 0 hall]; rfl
/-- C4: dispatching the literal line "history" first appends an entry for
the text "history" and then prints the listing of the post-append state,
so the listing contains its own invocation; after a second consecutive
"history" dispatch the listing contains both self-entries, with distinct
identifiers N+1 and N+2. -/
theorem history_records_itself (execOk : List String → Bool) (cs : List String) :
    (dispatch execOk (appendAll cs) "history").1 =
      recHistory (appendAll cs) "history" ∧
    (dispatch execOk (appendAll cs) "history").2 =
      (listAll (recHistory (appendAll cs) "history")).map printEntry ∧
    (⟨"history", cs.length + 1⟩ : history_t) ∈
      listAll (dispatch execOk (appendAll cs) "history").1 ∧
    (⟨"history", cs.length + 1⟩ : history_t) ∈
      listAll (dispatch execOk (dispatch execOk (appendAll cs) "history").1 "history").1 ∧
    (⟨"history", cs.length + 2⟩ : history_t) ∈
      listAll (dispatch execOk (dispatch execOk (appendAll cs) "history").1 "history").1 := by
  have h1 : (dispatch execOk (appendAll cs) "history").1 =
      appendAll (cs ++ ["history"]) := by
    rw [appendAll_concat]; rfl
  have h2 : (dispatch execOk (dispatch execOk (appendAll cs) "history").1 "history").1 =
      appendAll ((cs ++ ["history"]) ++ ["history"]) := by
    rw [appendAll_concat, h1]; rfl
  refine ⟨rfl, rfl, ?_, ?_, ?_⟩
  · rw [h1]; exact listAll_mem_concat cs "history" _ rfl
  · rw [h2]; exact listAll_mem_penultimate cs "history" "history" _ rfl
  · rw [h2]
    exact listAll_mem_concat (cs ++ ["history"]) "history" _
      (by simp only [List.length_append, List.length_singleton])

/-- C3: when identifier N is stored with command text T, and T is a plain
external-command line (nonempty argument vector whose first token does not
start with an exclamation mark and which is not the literal "history"),
dispatching a recall line whose first token starts with an exclamation mark
and whose remainder parses to N is identical to dispatching T directly:
same resulting state and same events (same spawned program, arguments and
foreground/background mode), and the new history entry holds the text T,
with the next identifier. -/
theorem replay_equiv_direct_dispatch (execOk : List String → Bool) (cs : List String)
    (rawLine T : String) (N : Nat) (tok : String) (rest : List String) (bgr : Int)
    (hfind : findByIdentifier (appendAll cs) (N : Int) = some ⟨T, N⟩)
    (hparse : parseCommand rawLine = (tok :: rest, bgr))
    (hbang : tok.toList.head? = some '!')
    (hatoi : atoi (String.mk (tok.toList.drop 1)) = (N : Int))
    (hThist : T ≠ "history")
    (hTargv : ∃ a as bgT, parseCommand T = (a :: as, bgT) ∧ a.toList.head? ≠ some '!') :
    dispatch execOk (appendAll cs) rawLine = dispatch execOk (appendAll cs) T ∧
    (dispatch execOk (appendAll cs) rawLine).1 = recHistory (appendAll cs) T ∧
    (listAll (dispatch execOk (appendAll cs) rawLine).1).getLast? =
      some ⟨T, cs.length + 1⟩ := by
  obtain ⟨a, as, bgT, hpT, haT⟩ := hTargv
  have hraw_ne : ¬ rawLine = "history" := by
    intro he
    subst he
    rw [parseCommand_history] at hparse
    injection hparse with h1 h2
    injection h1 with h3 h4
    rw [← h3] at hbang
    exact absurd hbang (by decide)
  have hc : callHist execOk (appendAll cs) ((N : Nat) : Int) rawLine =
      programCall execOk (appendAll cs) (a :: as) T bgT := by
    unfold callHist
    rw [hfind]
    show programCall execOk (appendAll cs) (parseCommand T).1 T (parseCommand T).2 =
      programCall execOk (appendAll cs) (a :: as) T bgT
    rw [hpT]
  have hdraw : dispatch execOk (appendAll cs) rawLine =
      programCall execOk (appendAll cs) (a :: as) T bgT := by
    rw [dispatch_parse_cons execOk _ rawLine tok rest bgr hraw_ne hparse,
      if_pos hbang, hatoi, hc]
  have hdT : dispatch execOk (appendAll cs) T =
      programCall execOk (appendAll cs) (a :: as) T bgT := by
    rw [dispatch_parse_cons execOk _ T a as bgT hThist hpT, if_neg haT]
  have hstate : (programCall execOk (appendAll cs) (a :: as) T bgT).1 =
      recHistory (appendAll cs) T := by
    rw [programCall_not_history _ _ _ _ _ hThist]
  refine ⟨hdraw.trans hdT.symm, by rw [hdraw, hstate], ?_⟩
  rw [hdraw, hstate, ← appendAll_concat]
  exact listAll_concat_getLast cs T _ rfl

theorem replay_equiv_direct_dispatch_witness :
    dispatch (fun _ => true) (appendAll ["echo hi"]) "!1" =
      dispatch (fun _ => true) (appendAll ["echo hi"]) "echo hi" :=
  (replay_equiv_direct_dispatch (fun _ => true) ["echo hi"] "!1" "echo hi" 1 "!1" [] 0
    (by decide) (by decide) (by decide) (by decide) (by decide)
    ⟨"echo", ["hi"], 0, by decide, by decide⟩).1

/-- C8: for a foreground dispatch of a command line whose executable cannot
be located or invoked (the exec oracle reports failure), the child prints
`<originalLine>: command not found` and the parent continues: dispatch
returns normally with exactly the spawn attempt and that message as
events, and the failed attempt is still appended to history as the newest
entry. -/
theorem foreground_failure_reported_and_recorded (execOk : List String → Bool)
    (cs : List String) (line : String) (a : String) (as : List String)
    (hhist : line ≠ "history")
    (hparse : parseCommand line = (a :: as, 0))
    (hbang : a.toList.head? ≠ some '!')
    (hfail : execOk (a :: as) = false) :
    dispatch execOk (appendAll cs) line =
      (recHistory (appendAll cs) line,
       [Event.spawn (a :: as) false, Event.print (line ++ ": command not found")]) ∧
    (listAll (dispatch execOk (appendAll cs) line).1).getLast? =
      some ⟨line, cs.length + 1⟩ := by
  have hd : dispatch execOk (appendAll cs) line =
      programCall execOk (appendAll cs) (a :: as) line 0 := by
    rw [dispatch_parse_cons execOk _ line a as 0 hhist hparse, if_neg hbang]
  constructor
  · rw [hd, programCall_not_history _ _ _ _ _ hhist, if_pos rfl]
    unfold foreground
    rw [hfail]
    rfl
  · rw [hd, programCall_not_history _ _ _ _ _ hhist]
    show (listAll (recHistory (appendAll cs) line)).getLast? = _
    rw [← appendAll_concat]
    exact listAll_concat_getLast cs line _ rfl

theorem foreground_failure_reported_and_recorded_witness :
    dispatch (fun _ => false) (appendAll []) "nosuch" =
      (recHistory (appendAll []) "nosuch",
       [Event.spawn ["nosuch"] false, Event.print ("nosuch" ++ ": command not found")]) :=
  (foreground_failure_reported_and_recorded (fun _ => false) [] "nosuch" "nosuch" []
    (by decide) (by decide) (by decide) rfl).1

/-- C6 counterexample: dispatching the line "!x" — which begins with an
exclamation mark and whose remainder "x" is not an integer literal — is
not a silent no-op: the dispatch produces output (the event-not-found
message), refuting "no message is printed". -/
theorem malformed_bang_not_silent :
    (dispatch (fun _ => true) initState "!x").2 ≠ [] := by decide

/-- C6 (amended): a blank or whitespace-only line is a silent no-op (no
event, no history entry, state unchanged).  A line whose first token
begins with an exclamation mark is dispatched as a history recall of the
identifier obtained by applying atoi to the token's remainder — so when
the remainder contains no digit at all, atoi yields 0, an identifier that
is never stored — and a recall of an absent identifier prints
`<line>: event not found` and records nothing (state unchanged). -/
theorem blank_silent_and_malformed_bang_reports (execOk : List String → Bool)
    (s : ShellState) (cs : List String) (line tok : String) (rest : List String)
    (bg id : Int) :
    (parseCommand line = ([], bg) → dispatch execOk s line = (s, [])) ∧
    (parseCommand line = (tok :: rest, bg) → tok.toList.head? = some '!' →
      dispatch execOk s line =
        callHist execOk s (atoi (String.mk (tok.toList.drop 1))) line) ∧
    (findByIdentifier s id = none →
      callHist execOk s id line = (s, [Event.print (line ++ ": event not found")])) ∧
    (id ≤ 0 → findByIdentifier (appendAll cs) id = none) ∧
    ((∀ c ∈ tok.toList.drop 1, c.isDigit = false) →
      atoi (String.mk (tok.toList.drop 1)) = 0) := by
  refine ⟨?_, ?_, ?_, ?_, ?_⟩
  · intro hp
    have hh : ¬ line = "history" := by
      intro he
      subst he
      rw [parseCommand_history] at hp
      injection hp with h1 h2
      cases h1
    exact dispatch_parse_nil execOk s line bg hh hp
  · intro hp hbang
    have hh : ¬ line = "history" := by
      intro he
      subst he
      rw [parseCommand_history] at hp
      injection hp with h1 h2
      injection h1 with h3 h4
      rw [← h3] at hbang
      exact absurd hbang (by decide)
    rw [dispatch_parse_cons execOk s line tok rest bg hh hp, if_pos hbang]
  · intro hnone
    simp only [callHist, hnone]
  · intro hid
    rw [findByIdentifier_appendAll]
    rw [if_neg (by omega)]
  · intro hnd
    exact atoi_no_digit _ (by simpa using hnd)

theorem blank_silent_and_malformed_bang_reports_witness :
    dispatch (fun _ => true) initState "" = (initState, []) ∧
    dispatch (fun _ => true) initState "!x" =
      (initState, [Event.print ("!x" ++ ": event not found")]) := by
  have h := blank_silent_and_malformed_bang_reports (fun _ => true) initState []
    "!x" "!x" [] 0 0
  have hblank := blank_silent_and_malformed_bang_reports (fun _ => true) initState []
    "" "" [] 0 0
  refine ⟨hblank.1 (by decide), ?_⟩
  rw [h.2.1 (by decide) (by decide),
    show atoi (String.mk ("!x".toList.drop 1)) = 0 from h.2.2.2.2 (by decide)]
  exact h.2.2.1 (h.2.2.2.1 (by decide))
